import Mathlib

/-!
Shallow embedding of `src/denoiser/enhance.py` (speech-enhancement batch
pipeline) and proofs about its orchestration, estimation, path planning and
normalization logic.

Modelling conventions:
* Audio samples are rationals (`ℚ`); a waveform is `channels × samples`
  (`List (List ℚ)`), a batch is a list of waveforms.
* Strings are `List Char` (`Str`), filesystem paths are lists of components
  (`Path := List Str`), mirroring what `os.path` computes component-wise.
* Fallible code (exceptions) is `Except Err _`; side effects (file writes,
  `os.makedirs`) are recorded as values in traces.
* External collaborators (the model, `DemucsStreamer`, audio decoding,
  `find_audio_files`, manifest reading) are abstract function parameters
  gathered in `Model` and `Env`.
-/

set_option autoImplicit false

namespace Denoiser

/-- Characters of a Python string. -/
abbrev Str := List Char

/-- A filesystem path, as its `/`-separated components. -/
abbrev Path := List Str

/-- One audio channel: a list of samples. -/
abbrev Channel := List ℚ

/-- A waveform tensor of shape `channels × samples`. -/
abbrev Wave := List Channel

/-- A batch tensor of shape `batch × channels × samples`. -/
abbrev Batch := List Wave

/-- Error taxonomy of the spec (§7): configuration errors (malformed
manifest), inference failures, I/O failures. -/
inductive Err where
  | configError
  | inferenceError
  | ioError
  deriving DecidableEq, Repr

/-! ## Elementwise tensor arithmetic (torch broadcasting on equal shapes) -/

/-- Scalar multiplication of a waveform, elementwise. -/
def scaleWave (c : ℚ) (w : Wave) : Wave :=
  w.map (fun ch => ch.map (fun x => c * x))

/-- Elementwise sum of two waveforms of equal shape. -/
def addWave (a b : Wave) : Wave :=
  List.zipWith (fun ca cb => List.zipWith (· + ·) ca cb) a b

/-- Scalar multiplication of a batch, elementwise. -/
def scaleBatch (c : ℚ) (b : Batch) : Batch :=
  b.map (scaleWave c)

/-- Elementwise sum of two batches of equal shape. -/
def addBatch (a b : Batch) : Batch :=
  List.zipWith addWave a b

/-- Elementwise division of a waveform by a scalar. -/
def divWave (w : Wave) (c : ℚ) : Wave :=
  w.map (fun ch => ch.map (fun x => x / c))

/-- `torch.cat([a, b], dim=1)`: concatenation of two waveforms along the
time axis (per channel). -/
def catTime (a b : Wave) : Wave :=
  List.zipWith (fun ca cb => ca ++ cb) a b

/-- The shape of a batch tensor. -/
def shapeOf (b : Batch) : List (List Nat) :=
  b.map (fun w => w.map List.length)

/-- `wav.abs().max().item()`: the peak absolute amplitude of a waveform
(`0` for an empty waveform, on which torch would instead raise). -/
def peakAbs (w : Wave) : ℚ :=
  ((w.map (fun ch => ch.map (fun x => |x|))).flatten).foldr max 0

/-- `write` (enhance.py:88-91): normalize so no sample exceeds amplitude 1
(`wav = wav / max(wav.abs().max().item(), 1)`), then persist.  The persisted
sample data is the returned waveform (`torchaudio.save` stores it as-is). -/
def write (wav : Wave) : Wave :=
  divWave wav (max (peakAbs wav) 1)

/-! ## Path operations (`os.path` on component lists)

A path string `a/b/c.wav` is modelled as its component list
`[a, b, c.wav]`; the `os.path` functions used by `save_wavs` act
component-wise, extension handling acting on the last component. -/

/-- Everything strictly before the last `'.'` of a string known to contain
one (helper for `splitext` and `rsplit`). -/
def beforeLastDot (s : Str) : Str :=
  (((s.reverse).dropWhile (fun c => c ≠ '.')).drop 1).reverse

/-- `s.rsplit(".", 1)[0]`: the part before the last dot, or all of `s` when
it has no dot. -/
def rsplitDotStem (s : Str) : Str :=
  if '.' ∈ s then beforeLastDot s else s

/-- `os.path.splitext(basename)[0]`: the stem of a single path component.
Leading dots never start an extension (`.bashrc` has none), so the
extension begins at the last dot only if a non-dot character precedes it. -/
def splitextStem (s : Str) : Str :=
  let pre := s.takeWhile (fun c => c = '.')
  let rest := s.drop pre.length
  if '.' ∈ rest then pre ++ beforeLastDot rest else s

/-- `os.path.basename`: the last component (empty for an empty path). -/
def basenameOf (p : Path) : Str :=
  p.getLastD []

/-- `os.path.dirname`: all components but the last. -/
def dirnameOf (p : Path) : Path :=
  p.dropLast

/-- `os.path.join(a, b)` for a relative `b`: concatenation of components. -/
def joinPath (a b : Path) : Path :=
  a ++ b

/-- Length of the longest common component prefix of two paths. -/
def commonPrefixLen : Path → Path → Nat
  | a :: as, b :: bs => if a = b then commonPrefixLen as bs + 1 else 0
  | _, _ => 0

/-- `os.path.relpath(path, start)` on already-normalized component lists
(no `.`/`..` components, both resolved against the same root, as after
`abspath`): drop the common prefix and climb out of what remains of
`start`; the empty relative path renders as `.`. -/
def relpath (path start : Path) : Path :=
  let i := commonPrefixLen path start
  let rel := List.replicate (start.length - i) ['.', '.'] ++ path.drop i
  if rel = [] then [['.']] else rel

/-- Apply `f` to the last component of a path. -/
def mapLast (f : Str → Str) : Path → Path
  | [] => []
  | [x] => [f x]
  | x :: y :: xs => x :: mapLast f (y :: xs)

/-- `".wav"` as a `Str`. -/
def wavExt : Str := ['.', 'w', 'a', 'v']

/-- A planned persistence action of `save_wavs` for one item: the directory
recursively created beforehand (`os.makedirs`, only in the `input_root`
branch), the output path, and the sample data handed to `write`. -/
structure WriteOp where
  mkdirs : Option Path
  path : Path
  data : Wave
  deriving DecidableEq, Repr

/-- The per-item path planning of `save_wavs` (enhance.py:75-83).
With an `input_root`: `relpath`, join onto `out_dir`, replace the
extension with `.wav` (`splitext`), and create the containing directory.
Without: join `out_dir` with the basename's `rsplit(".", 1)[0] + ".wav"`. -/
def plannedWrite (filename outDir : Path) (inputRoot : Option Path) :
    Option Path × Path :=
  match inputRoot with
  | some root =>
      let relPath := relpath filename root
      let outputPath := joinPath outDir relPath
      let outputPath := mapLast (fun s => splitextStem s ++ wavExt) outputPath
      (some (dirnameOf outputPath), outputPath)
  | none =>
      (none, joinPath outDir [rsplitDotStem (basenameOf filename) ++ wavExt])

/-- Zip three lists (Python `zip`), truncating to the shortest. -/
def zip3 {α β γ : Type} : List α → List β → List γ → List (α × β × γ)
  | a :: as, b :: bs, c :: cs => (a, b, c) :: zip3 as bs cs
  | _, _, _ => []

/-- `save_wavs` (enhance.py:72-85): for each `(estimate, noisy, filename)`
triple, plan the output path (creating its directory in the `input_root`
branch) and persist the normalized estimate there via `write`. -/
def save_wavs (estimates noisySigs : Batch) (filenames : List Path)
    (outDir : Path) (inputRoot : Option Path) : List WriteOp :=
  (zip3 estimates noisySigs filenames).map (fun t =>
    let pw := plannedWrite t.2.2 outDir inputRoot
    { mkdirs := pw.1, path := pw.2, data := write t.1 })

/-! ## Model, streamer, configuration -/

/-- Behaviour of a `DemucsStreamer` instance fed the whole clip once: the
segment returned by `feed` and the segment returned by the final `flush`,
both as functions of the waveform fed.  The streamer is an external
collaborator (`denoiser/demucs.py`); only this call contract is modelled. -/
structure Streamer where
  feed : Wave → Wave
  flush : Wave → Wave

/-- The pretrained model, an external collaborator: its sample rate and
channel count, whole-clip inference `run` (fallible: shape or numeric
failures), and the `DemucsStreamer` construction behaviour as a function of
the `dry` construction parameter. -/
structure Model where
  sample_rate : Nat
  chin : Nat
  run : Batch → Except Err Batch
  streamer : ℚ → Streamer

/-- The recognized command-line configuration (enhance.py:27-54).
`noisyDir`/`noisyJson` are `none` when absent; as in Python, an empty
string supplied for either is falsy and treated like absence. -/
structure Args where
  device : Str
  dry : ℚ
  num_workers : Nat
  streaming : Bool
  batch_size : Nat
  out_dir : Path
  noisyDir : Option Path
  noisyJson : Option Str

/-- `"cpu"` as a `Str`. -/
def cpuStr : Str := ['c', 'p', 'u']

/-- Python truthiness of an optional string (`None` and `""` are falsy). -/
def truthyStr : Option Str → Option Str
  | none => none
  | some s => if s = [] then none else some s

/-- Python truthiness of an optional path (`None` and `""` are falsy). -/
def truthyPath : Option Path → Option Path
  | none => none
  | some p => if p = [] then none else some p

/-- `get_estimate` (enhance.py:57-69).  `torch.set_num_threads(1)` and
`torch.no_grad()` affect only thread count and gradient tracking, not the
computed value.  Streaming: construct a streamer with `dry`, concatenate
`feed(noisy[0])` and `flush()` along time, re-add the batch dimension
(`[None]`); `noisy[0]` on an empty batch raises (modelled as an inference
error).  Non-streaming: whole-clip inference then the dry/wet blend
`(1 - dry) * estimate + dry * noisy`. -/
def get_estimate (model : Model) (noisy : Batch) (args : Args) :
    Except Err Batch :=
  if args.streaming then
    match noisy with
    | [] => .error .inferenceError
    | w :: _ =>
        let streamer := model.streamer args.dry
        .ok [catTime (streamer.feed w) (streamer.flush w)]
  else
    match model.run noisy with
    | .error e => .error e
    | .ok estimate =>
        .ok (addBatch (scaleBatch (1 - args.dry) estimate)
              (scaleBatch args.dry noisy))

/-! ## Dataset resolution -/

/-- A parsed JSON value (result of `json.load`). -/
inductive Json where
  | null
  | bool (b : Bool)
  | num (q : ℚ)
  | str (s : Str)
  | arr (xs : List Json)
  | obj (kvs : List (Str × Json))

/-- One dataset item: `Audioset` with `with_path=True` yields
`(signal, path)` pairs, one per file. -/
structure Item where
  wave : Wave
  file : Path
  deriving DecidableEq, Repr

/-- The external world: manifest reading (`none` models a file whose
contents are not valid JSON, on which `json.load` raises), recursive audio
discovery (`find_audio_files`), and audio decoding (`Audioset`'s loader). -/
structure Env where
  readManifest : Str → Option Json
  findAudioFiles : Path → List Path
  decodeAudio : Path → Wave

/-- Modelled from the spec: `Audioset` (denoiser/audio.py, not under
src/) accepts the manifest value only when it is a list of file path
strings (§6: "a list of file path strings, one entry per audio file"); a
non-list top level (or non-string entry) is a configuration error. -/
def manifestFiles : Json → Except Err (List Str)
  | .arr xs =>
      xs.foldr (fun j acc =>
        match j, acc with
        | .str s, .ok rest => .ok (s :: rest)
        | _, _ => .error .configError) (.ok [])
  | _ => .error .configError

/-- Split a character list at every occurrence of `sep`. -/
def splitOnChar (sep : Char) : Str → List Str
  | [] => [[]]
  | c :: cs =>
      let rest := splitOnChar sep cs
      if c = sep then [] :: rest
      else (c :: rest.headD []) :: rest.tail

/-- Split a path string on `'/'` into components (`"a/b.wav"` ↦
`[a, b.wav]`), dropping empty components as normalization does. -/
def pathOfStr (s : Str) : Path :=
  (splitOnChar '/' s).filter (fun c => c ≠ [])

/-- Result of `get_dataset`: `dset = none` models the Python `None` return
(no input source), in which case the warning at enhance.py:105-107 has
been logged. -/
structure DsetResult where
  dset : Option (List Item)
  warned : Bool
  deriving DecidableEq, Repr

/-- `get_dataset` (enhance.py:94-110).  The `hasattr(args, 'dset')` probe
always fails for the CLI `args` modelled here, so `paths = args`.  A truthy
`noisy_json` wins over `noisy_dir`; with neither, warn and return `None`.
`json.load` raising on malformed JSON is the `configError` case. -/
def get_dataset (env : Env) (args : Args) : Except Err DsetResult :=
  match truthyStr args.noisyJson with
  | some mpath =>
      match env.readManifest mpath with
      | none => .error .configError
      | some j =>
          match manifestFiles j with
          | .error e => .error e
          | .ok files =>
              .ok ⟨some (files.map (fun f =>
                    ⟨env.decodeAudio (pathOfStr f), pathOfStr f⟩)), false⟩
  | none =>
      match truthyPath args.noisyDir with
      | some d =>
          .ok ⟨some ((env.findAudioFiles d).map (fun f =>
                ⟨env.decodeAudio f, f⟩)), false⟩
      | none => .ok ⟨none, true⟩

/-! ## The dispatch scheduler (`enhance`) -/

/-- Structurally recursive chunking: groups of size `n + 1` (fuel bounds
the recursion by the list length). -/
def chunksFuel {α : Type} : Nat → Nat → List α → List (List α)
  | 0, _, _ => []
  | _ + 1, _, [] => []
  | fuel + 1, n, x :: xs => (x :: xs.take n) :: chunksFuel fuel n (xs.drop n)

/-- `distrib.loader(dset, batch_size)`: the single-process data loader
splits the dataset into consecutive batches of `batch_size` items (the
last possibly shorter) and collates each batch into a stacked signal
tensor plus the list of paths. -/
def loader (dset : List Item) (batchSize : Nat) : List (Batch × List Path) :=
  (chunksFuel dset.length (batchSize - 1) dset).map
    (fun chunk => (chunk.map Item.wave, chunk.map Item.file))

/-- `_estimate_and_save` (enhance.py:113-116): one complete work unit,
estimate then plan-and-write; `args.noisy_dir` (truthy) is the
`input_root`. -/
def estimate_and_save (model : Model) (noisySignals : Batch)
    (filenames : List Path) (outDir : Path) (args : Args) :
    Except Err (List WriteOp) :=
  match get_estimate model noisySignals args with
  | .error e => .error e
  | .ok estimate =>
      .ok (save_wavs estimate noisySignals filenames outDir
            (truthyPath args.noisyDir))

/-- A scheduling decision recorded for one loader item: submitted to the
process pool, or executed inline. -/
inductive Ev where
  | submit (noisy : Batch) (files : List Path)
  | execInline (noisy : Batch) (files : List Path)
  deriving DecidableEq, Repr

/-- The submit-vs-inline condition of enhance.py:145:
`args.device == 'cpu' and args.num_workers > 1`. -/
def dispatchCond (args : Args) : Bool :=
  args.device = cpuStr ∧ 1 < args.num_workers

/-- The dispatch loop (enhance.py:141-153), returning the scheduling
events in order, the pending job outcomes in submission order, the writes
performed inline, and the exception (if any) that aborted an inline item.
Submission never blocks and never raises, so under the pool branch the
loop always reaches the next item; an inline exception propagates at once,
so no later item is reached. -/
def runLoop (model : Model) (args : Args) (outDir : Path) :
    List (Batch × List Path) →
    List Ev × List (Except Err (List WriteOp)) × List WriteOp × Option Err
  | [] => ([], [], [], none)
  | (noisySignals, filenames) :: rest =>
      if dispatchCond args then
        let job := estimate_and_save model noisySignals filenames outDir args
        let r := runLoop model args outDir rest
        (.submit noisySignals filenames :: r.1, job :: r.2.1, r.2.2.1, r.2.2.2)
      else
        match estimate_and_save model noisySignals filenames outDir args with
        | .error e => ([.execInline noisySignals filenames], [], [], some e)
        | .ok ops =>
            let r := runLoop model args outDir rest
            (.execInline noisySignals filenames :: r.1, r.2.1,
              ops ++ r.2.2.1, r.2.2.2)

/-- The drain (enhance.py:155-158): `pending.result()` on every submitted
job in submission order; the first failure re-raises, aborting the rest. -/
def drain : List (Except Err (List WriteOp)) → Except Err Unit
  | [] => .ok ()
  | .ok _ :: rest => drain rest
  | .error e :: _ => .error e

instance instDecEqExcept {ε α : Type} [DecidableEq ε] [DecidableEq α] :
    DecidableEq (Except ε α) := fun a b =>
  match a, b with
  | .error e, .error f =>
      if h : e = f then .isTrue (by rw [h])
      else .isFalse (fun hh => h (by injection hh))
  | .error _, .ok _ => .isFalse (fun h => nomatch h)
  | .ok _, .error _ => .isFalse (fun h => nomatch h)
  | .ok x, .ok y =>
      if h : x = y then .isTrue (by rw [h])
      else .isFalse (fun hh => h (by injection hh))

/-- Whether a joined job completed without raising. -/
def isOkJob : Except Err (List WriteOp) → Bool
  | .ok _ => true
  | .error _ => false

/-- Writes performed by the pool workers: every submitted job executes
(`ProcessPoolExecutor` never cancels a submitted task; shutdown waits),
so exactly the successful jobs' writes land on disk. -/
def writesOfJobs (jobs : List (Except Err (List WriteOp))) : List WriteOp :=
  (jobs.map (fun r => match r with | .ok ws => ws | .error _ => [])).flatten

/-- The observable outcome of one `enhance` run. -/
structure RunResult where
  warned : Bool
  poolSize : Nat
  events : List Ev
  pendings : List (Except Err (List WriteOp))
  inlineWrites : List WriteOp
  written : List WriteOp
  outcome : Except Err Unit
  deriving DecidableEq, Repr

/-- `enhance` (enhance.py:119-158).  Model loading, `model.eval()`, the
rank-0 `os.makedirs(out_dir)` and `distrib.barrier()` do not affect the
values traced here.  The dataset is loaded with the literal
`batch_size=1` (enhance.py:132) regardless of `args.batch_size`; a `None`
dataset returns at once (warning already logged); otherwise the dispatch
loop runs, then — exactly when jobs are pending — the drain.  `written`
collects everything on disk at the end: inline writes plus the writes of
every successful submitted job (submitted jobs all execute even when the
run aborts). -/
def enhance (env : Env) (model : Model) (args : Args) : RunResult :=
  match get_dataset env args with
  | .error e =>
      { warned := false, poolSize := args.num_workers, events := [],
        pendings := [], inlineWrites := [], written := [],
        outcome := .error e }
  | .ok ⟨none, warned⟩ =>
      { warned := warned, poolSize := args.num_workers, events := [],
        pendings := [], inlineWrites := [], written := [],
        outcome := .ok () }
  | .ok ⟨some dset, warned⟩ =>
      let items := loader dset 1
      let r := runLoop model args args.out_dir items
      let pendings := r.2.1
      let inlineWrites := r.2.2.1
      { warned := warned, poolSize := args.num_workers, events := r.1,
        pendings := pendings, inlineWrites := inlineWrites,
        written := inlineWrites ++ writesOfJobs pendings,
        outcome :=
          match r.2.2.2 with
          | some e => .error e
          | none => drain pendings }

/-- The `__main__` entry (enhance.py:161-165): an uncaught exception from
`enhance` terminates the process with a non-zero status; a normal return
exits with status zero. -/
def mainExitCode (env : Env) (model : Model) (args : Args) : Nat :=
  match (enhance env model args).outcome with
  | .ok _ => 0
  | .error _ => 1

/-- The loader items a run iterates over: the resolved dataset in batches
of the hard-coded size 1, or nothing when resolution fails or yields no
dataset. -/
def enhanceItems (env : Env) (args : Args) : List (Batch × List Path) :=
  match get_dataset env args with
  | .ok ⟨some dset, _⟩ => loader dset 1
  | _ => []

/-! ## Concrete instances used by witnesses and counterexamples -/

/-- A model that echoes its input (used by witnesses). -/
def wModel : Model where
  sample_rate := 16000
  chin := 1
  run := fun b => .ok b
  streamer := fun _ => { feed := fun w => w, flush := fun w => w }

/-- A model whose whole-clip inference always fails. -/
def wModelFail : Model where
  sample_rate := 16000
  chin := 1
  run := fun _ => .error .inferenceError
  streamer := fun _ => { feed := fun w => w, flush := fun w => w }

/-- Input directory `i` used by run-level witnesses. -/
def wIn : Path := [['i']]

/-- A baseline configuration: cpu, single worker, non-streaming, `dry=0`,
reading from the input directory `i`. -/
def wArgs : Args where
  device := cpuStr
  dry := 0
  num_workers := 1
  streaming := false
  batch_size := 1
  out_dir := [['o']]
  noisyDir := some wIn
  noisyJson := none

/-- An environment whose input directory holds `i/a.wav` and `i/b.wav`,
decoded as single-channel waveforms with no samples (so that full runs
evaluate without rational arithmetic), and no manifest. -/
def wEnv : Env where
  readManifest := fun _ => none
  findAudioFiles := fun _ =>
    [[['i'], ['a', '.', 'w', 'a', 'v']], [['i'], ['b', '.', 'w', 'a', 'v']]]
  decodeAudio := fun _ => [[]]

/-- An environment whose manifest file parses to the JSON number `3`
(valid JSON, non-list top level). -/
def wEnvNonList : Env where
  readManifest := fun _ => some (.num 3)
  findAudioFiles := fun _ => []
  decodeAudio := fun _ => [[]]

/-- The five-file environment of the C7 scenario: `i/a.wav` … `i/e.wav`;
the third file decodes to a waveform with no channels, every other file to
a one-channel waveform. -/
def wEnv5 : Env where
  readManifest := fun _ => none
  findAudioFiles := fun _ =>
    [[['i'], ['a', '.', 'w', 'a', 'v']], [['i'], ['b', '.', 'w', 'a', 'v']],
     [['i'], ['c', '.', 'w', 'a', 'v']], [['i'], ['d', '.', 'w', 'a', 'v']],
     [['i'], ['e', '.', 'w', 'a', 'v']]]
  decodeAudio := fun p => if p = [['i'], ['c', '.', 'w', 'a', 'v']] then [] else [[]]

/-- A model for the C7 scenario: inference raises on the zero-channel
waveform (the third file) and succeeds on every other input. -/
def wModelShape : Model where
  sample_rate := 16000
  chin := 1
  run := fun b => if shapeOf b = [[]] then .error .inferenceError else .ok b
  streamer := fun _ => { feed := fun w => w, flush := fun w => w }

/-! ## Helper lemmas -/

lemma divWave_one (w : Wave) : divWave w 1 = w := by
  simp [divWave]

lemma foldr_max_div (l : List ℚ) (c : ℚ) (hc : 0 ≤ c) :
    (l.map (fun x => x / c)).foldr max 0 = l.foldr max 0 / c := by
  induction l with
  | nil => simp
  | cons a t ih => simp [ih, max_div_div_right hc]

lemma peakAbs_divWave (w : Wave) (c : ℚ) (hc : 0 < c) :
    peakAbs (divWave w c) = peakAbs w / c := by
  have habs : ∀ x : ℚ, |x / c| = |x| / c := fun x => by
    rw [abs_div, abs_of_pos hc]
  unfold peakAbs divWave
  rw [List.map_map]
  have hfun : ((fun ch : Channel => ch.map (fun x => |x|)) ∘
      fun ch : Channel => ch.map (fun x => x / c))
      = fun ch : Channel => (ch.map (fun x => |x|)).map (fun x => x / c) := by
    funext ch
    simp [List.map_map, Function.comp_def, habs]
  rw [hfun, show (w.map fun ch => (ch.map fun x => |x|).map fun x => x / c)
        = ((w.map fun ch => ch.map fun x => |x|).map fun ch =>
            ch.map fun x => x / c) from (List.map_map ..).symm,
      ← List.map_flatten]
  exact foldr_max_div _ c hc.le

/-! ## C4: peak normalization in `write` -/

/-- C4: for every waveform handed to `write`, the persisted waveform is
the input divided by `max(peak_absolute_amplitude, 1.0)`; a waveform whose
peak absolute amplitude is at most 1 is persisted unchanged (never
amplified), and one whose peak exceeds 1 is persisted with peak absolute
amplitude exactly 1. -/
theorem write_peak_normalization (w : Wave) :
    write w = divWave w (max (peakAbs w) 1)
    ∧ (peakAbs w ≤ 1 → write w = w)
    ∧ (1 < peakAbs w → peakAbs (write w) = 1) := by
  refine ⟨rfl, fun h => ?_, fun h => ?_⟩
  · rw [write, max_eq_right h, divWave_one]
  · have hpos : 0 < peakAbs w := lt_trans one_pos h
    rw [write, max_eq_left h.le, peakAbs_divWave w _ hpos, div_self hpos.ne']

theorem write_peak_normalization_witness :
    (peakAbs [[(1 : ℚ), -1]] ≤ 1
      ∧ write [[(1 : ℚ), -1]] = [[(1 : ℚ), -1]])
    ∧ (1 < peakAbs [[(-4 : ℚ)], [2]]
      ∧ peakAbs (write [[(-4 : ℚ)], [2]]) = 1) :=
  ⟨⟨by decide, (write_peak_normalization [[(1 : ℚ), -1]]).2.1 (by decide)⟩,
   ⟨by decide, (write_peak_normalization [[(-4 : ℚ)], [2]]).2.2 (by decide)⟩⟩

/-! ## C5: output path planning -/

lemma dropWhileNeDot_append (l r : Str) (h : '.' ∉ l) :
    (l ++ '.' :: r).dropWhile (fun c => c ≠ '.') = '.' :: r := by
  induction l with
  | nil => simp [List.dropWhile]
  | cons a t ih =>
      have ha : a ≠ '.' := by rintro rfl; exact h (List.mem_cons_self _ _)
      have ht : '.' ∉ t := fun hm => h (List.mem_cons_of_mem _ hm)
      simp [List.dropWhile, ha]
      simpa using ih ht

lemma beforeLastDot_append (name ext : Str) (hed : '.' ∉ ext) :
    beforeLastDot (name ++ '.' :: ext) = name := by
  have hrev : (name ++ '.' :: ext).reverse = ext.reverse ++ '.' :: name.reverse := by
    simp [List.reverse_append]
  rw [beforeLastDot, hrev,
    dropWhileNeDot_append _ _ (by simpa using hed)]
  simp

lemma splitextStem_ext (name ext : Str) (hname : name ≠ [])
    (hnd : '.' ∉ name) (hed : '.' ∉ ext) :
    splitextStem (name ++ '.' :: ext) = name := by
  cases name with
  | nil => exact absurd rfl hname
  | cons a t =>
      have ha : a ≠ '.' := by rintro rfl; exact hnd (List.mem_cons_self _ _)
      have hmem : '.' ∈ (a :: t) ++ '.' :: ext := by simp
      simp only [splitextStem, List.takeWhile]
      simp [ha, hmem]
      exact beforeLastDot_append (a :: t) ext hed

lemma rsplitDotStem_ext (name ext : Str) (hed : '.' ∉ ext) :
    rsplitDotStem (name ++ '.' :: ext) = name := by
  have hmem : '.' ∈ name ++ '.' :: ext := by simp
  simp [rsplitDotStem, hmem, beforeLastDot_append _ _ hed]

lemma commonPrefixLen_self_append (root rest : Path) :
    commonPrefixLen (root ++ rest) root = root.length := by
  induction root with
  | nil => cases rest <;> rfl
  | cons a t ih => simp [commonPrefixLen, ih]

lemma relpath_prefix (root rest : Path) (h : rest ≠ []) :
    relpath (root ++ rest) root = rest := by
  unfold relpath
  rw [commonPrefixLen_self_append]
  simp [List.drop_left, h]

lemma mapLast_append (f : Str → Str) (xs : Path) (y : Str) :
    mapLast f (xs ++ [y]) = xs ++ [f y] := by
  induction xs with
  | nil => rfl
  | cons a t ih =>
      cases t with
      | nil => rfl
      | cons b u => simpa [mapLast] using ih

/-- C5: with an `input_root`, the planned output path joins `out_dir`
with the input's path relative to the root, extension replaced by `.wav`
(nested directories preserved, the containing directory being created);
without one, it joins `out_dir` with the input's basename, extension
replaced by `.wav`, regardless of the original nesting. -/
theorem save_wavs_output_paths (root dirs anyDirs outDir : Path)
    (name ext : Str) (hname : name ≠ []) (hnd : '.' ∉ name)
    (hed : '.' ∉ ext) :
    plannedWrite (root ++ dirs ++ [name ++ '.' :: ext]) outDir (some root)
      = (some (outDir ++ dirs), outDir ++ dirs ++ [name ++ wavExt])
    ∧ plannedWrite (anyDirs ++ [name ++ '.' :: ext]) outDir none
      = (none, outDir ++ [name ++ wavExt]) := by
  constructor
  · have hrel : relpath (root ++ (dirs ++ [name ++ '.' :: ext])) root
        = dirs ++ [name ++ '.' :: ext] := relpath_prefix _ _ (by simp)
    simp only [plannedWrite, List.append_assoc, hrel, joinPath]
    rw [← List.append_assoc outDir dirs, mapLast_append,
      splitextStem_ext name ext hname hnd hed]
    simp [dirnameOf]
  · have hbase : basenameOf (anyDirs ++ [name ++ '.' :: ext])
        = name ++ '.' :: ext := by
      simp [basenameOf]
    simp [plannedWrite, hbase, rsplitDotStem_ext name ext hed, joinPath]

theorem save_wavs_output_paths_witness :
    plannedWrite [['r'], ['a'], ['f', '.', 'm', 'p', '3']] [['o']]
        (some [['r']])
      = (some [['o'], ['a']], [['o'], ['a'], ['f'] ++ wavExt])
    ∧ plannedWrite [['d'], ['f', '.', 'm', 'p', '3']] [['o']] none
      = (none, [['o'], ['f'] ++ wavExt]) :=
  save_wavs_output_paths [['r']] [['a']] [['d']] [['o']] ['f']
    ['m', 'p', '3'] (by decide) (by decide) (by decide)

/-! ## C3: the non-streaming dry/wet blend -/

lemma zip_add_scaleZero_right (a b : Channel) (h : a.length ≤ b.length) :
    List.zipWith (· + ·) a (b.map (fun x => (0 : ℚ) * x)) = a := by
  induction a generalizing b with
  | nil => simp
  | cons x t ih =>
      cases b with
      | nil => simp at h
      | cons y u =>
          simp only [List.map_cons, List.zipWith_cons_cons, zero_mul, add_zero]
          refine congrArg _ ?_
          simpa using ih u (by simpa using h)

lemma zip_add_scaleZero_left (a b : Channel) (h : b.length ≤ a.length) :
    List.zipWith (· + ·) (a.map (fun x => (0 : ℚ) * x)) b = b := by
  induction b generalizing a with
  | nil => simp
  | cons y u ih =>
      cases a with
      | nil => simp at h
      | cons x t =>
          simp only [List.map_cons, List.zipWith_cons_cons, zero_mul, zero_add]
          refine congrArg _ ?_
          simpa using ih t (by simpa using h)

lemma scaleWave_one (w : Wave) : scaleWave 1 w = w := by
  simp [scaleWave]

lemma scaleBatch_one (b : Batch) : scaleBatch 1 b = b := by
  rw [scaleBatch, List.map_congr_left (fun w _ => scaleWave_one w)]
  exact List.map_id b

lemma addWave_scaleZero_right (a b : Wave)
    (h : a.map List.length = b.map List.length) :
    addWave a (scaleWave 0 b) = a := by
  induction a generalizing b with
  | nil => simp [addWave]
  | cons ca ta ih =>
      cases b with
      | nil => simp at h
      | cons cb tb =>
          simp only [List.map_cons, List.cons.injEq] at h
          simp only [addWave, scaleWave, List.map_cons, List.zipWith_cons_cons]
          refine congrArg₂ _ (zip_add_scaleZero_right ca cb (le_of_eq h.1)) ?_
          simpa [addWave, scaleWave] using ih tb h.2

lemma addWave_scaleZero_left (a b : Wave)
    (h : a.map List.length = b.map List.length) :
    addWave (scaleWave 0 a) b = b := by
  induction a generalizing b with
  | nil => cases b with
      | nil => simp [addWave]
      | cons cb tb => simp at h
  | cons ca ta ih =>
      cases b with
      | nil => simp [addWave, scaleWave]
      | cons cb tb =>
          simp only [List.map_cons, List.cons.injEq] at h
          simp only [addWave, scaleWave, List.map_cons, List.zipWith_cons_cons]
          refine congrArg₂ _ (zip_add_scaleZero_left ca cb (le_of_eq h.1.symm)) ?_
          simpa [addWave, scaleWave] using ih tb h.2

lemma addBatch_scaleZero_right (a b : Batch) (h : shapeOf a = shapeOf b) :
    addBatch a (scaleBatch 0 b) = a := by
  induction a generalizing b with
  | nil => simp [addBatch]
  | cons wa ta ih =>
      cases b with
      | nil => simp [shapeOf] at h
      | cons wb tb =>
          simp only [shapeOf, List.map_cons, List.cons.injEq] at h
          simp only [addBatch, scaleBatch, List.map_cons, List.zipWith_cons_cons]
          refine congrArg₂ _ (addWave_scaleZero_right wa wb h.1) ?_
          simpa [addBatch, scaleBatch, shapeOf] using ih tb h.2

lemma addBatch_scaleZero_left (a b : Batch) (h : shapeOf a = shapeOf b) :
    addBatch (scaleBatch 0 a) b = b := by
  induction a generalizing b with
  | nil => cases b with
      | nil => simp [addBatch]
      | cons wb tb => simp [shapeOf] at h
  | cons wa ta ih =>
      cases b with
      | nil => simp [addBatch, scaleBatch]
      | cons wb tb =>
          simp only [shapeOf, List.map_cons, List.cons.injEq] at h
          simp only [addBatch, scaleBatch, List.map_cons, List.zipWith_cons_cons]
          refine congrArg₂ _ (addWave_scaleZero_left wa wb h.1) ?_
          simpa [addBatch, scaleBatch, shapeOf] using ih tb h.2

/-- C3: in non-streaming mode, for every `dry ∈ [0,1]`, the estimate is
`(1 - dry) * raw + dry * noisy` where `raw` is the whole-clip model output
on the noisy batch; `dry = 0` yields `raw` exactly and `dry = 1` yields
the noisy input exactly (the model output having the input's shape, per
the collaborator contract). -/
theorem get_estimate_nonstreaming_blend (model : Model) (noisy raw : Batch)
    (args : Args) (hstream : args.streaming = false)
    (hrun : model.run noisy = .ok raw)
    (hshape : shapeOf raw = shapeOf noisy)
    (_hdry : 0 ≤ args.dry ∧ args.dry ≤ 1) :
    get_estimate model noisy args
      = .ok (addBatch (scaleBatch (1 - args.dry) raw)
              (scaleBatch args.dry noisy))
    ∧ (args.dry = 0 → get_estimate model noisy args = .ok raw)
    ∧ (args.dry = 1 → get_estimate model noisy args = .ok noisy) := by
  have hmain : get_estimate model noisy args
      = .ok (addBatch (scaleBatch (1 - args.dry) raw)
              (scaleBatch args.dry noisy)) := by
    simp [get_estimate, hstream, hrun]
  refine ⟨hmain, fun h0 => ?_, fun h1 => ?_⟩
  · rw [hmain, h0]
    rw [show (1 : ℚ) - 0 = 1 from sub_zero 1, scaleBatch_one,
      addBatch_scaleZero_right raw noisy hshape]
  · rw [hmain, h1]
    rw [show (1 : ℚ) - 1 = 0 from sub_self 1, scaleBatch_one,
      addBatch_scaleZero_left raw noisy hshape]

theorem get_estimate_nonstreaming_blend_witness :
    get_estimate wModel [[[1], [2]]] wArgs = .ok [[[1], [2]]]
    ∧ get_estimate wModel [[[1], [2]]] { wArgs with dry := 1 }
        = .ok [[[1], [2]]] :=
  ⟨(get_estimate_nonstreaming_blend wModel [[[1], [2]]] [[[1], [2]]] wArgs
      rfl rfl rfl (by decide)).2.1 rfl,
   (get_estimate_nonstreaming_blend wModel [[[1], [2]]] [[[1], [2]]]
      { wArgs with dry := 1 } rfl rfl rfl (by decide)).2.2 rfl⟩

/-! ## C6: the streaming path -/

/-- C6: with `streaming = true`, the estimate is the concatenation along
the time axis of the streamer's `feed` output followed by its `flush`
output (re-wrapped in the batch dimension), where the streamer is
constructed with `dry`; the dry/wet blend is not applied in this path —
the result depends on `dry` only through the streamer construction, so
any `dry` producing the same streamer produces the same estimate. -/
theorem get_estimate_streaming_concat (model : Model) (w : Wave)
    (rest : Batch) (args : Args) (hstream : args.streaming = true) :
    get_estimate model (w :: rest) args
      = .ok [catTime ((model.streamer args.dry).feed w)
              ((model.streamer args.dry).flush w)]
    ∧ ∀ args' : Args, args'.streaming = true →
        model.streamer args'.dry = model.streamer args.dry →
        get_estimate model (w :: rest) args'
          = get_estimate model (w :: rest) args := by
  constructor
  · simp [get_estimate, hstream]
  · intro args' h1 h2
    simp [get_estimate, hstream, h1, h2]

theorem get_estimate_streaming_concat_witness :
    get_estimate wModel [[[1], [2]]] { wArgs with streaming := true }
      = .ok [catTime
          ((wModel.streamer ({ wArgs with streaming := true } : Args).dry).feed
            [[1], [2]])
          ((wModel.streamer ({ wArgs with streaming := true } : Args).dry).flush
            [[1], [2]])]
    ∧ get_estimate wModel [[[1], [2]]] { wArgs with streaming := true, dry := 1 }
        = get_estimate wModel [[[1], [2]]] { wArgs with streaming := true } :=
  ⟨(get_estimate_streaming_concat wModel [[1], [2]] []
      { wArgs with streaming := true } rfl).1,
   (get_estimate_streaming_concat wModel [[1], [2]] []
      { wArgs with streaming := true } rfl).2
     { wArgs with streaming := true, dry := 1 } rfl rfl⟩

/-! ## C1: the dispatch decision -/

lemma dispatchCond_iff (args : Args) :
    dispatchCond args = true ↔ args.device = cpuStr ∧ 1 < args.num_workers := by
  simp [dispatchCond]

lemma runLoop_cond_true (model : Model) (args : Args) (outDir : Path)
    (l : List (Batch × List Path)) (h : dispatchCond args = true) :
    runLoop model args outDir l
      = (l.map (fun d => Ev.submit d.1 d.2),
         l.map (fun d => estimate_and_save model d.1 d.2 outDir args),
         [], none) := by
  induction l with
  | nil => rfl
  | cons d t ih =>
      obtain ⟨noisy, files⟩ := d
      simp [runLoop, h, ih]

lemma runLoop_cond_false (model : Model) (args : Args) (outDir : Path)
    (l : List (Batch × List Path)) (h : dispatchCond args = false) :
    (runLoop model args outDir l).2.1 = []
    ∧ ∀ ev ∈ (runLoop model args outDir l).1,
        ∃ n f, ev = Ev.execInline n f := by
  induction l with
  | nil => exact ⟨rfl, by simp [runLoop]⟩
  | cons d t ih =>
      obtain ⟨noisy, files⟩ := d
      rcases he : estimate_and_save model noisy files outDir args with e | ops
      · refine ⟨?_, ?_⟩ <;> simp [runLoop, h, he]
      · refine ⟨?_, ?_⟩
        · simpa [runLoop, h, he] using ih.1
        · intro ev hev
          simp only [runLoop, h, Bool.false_eq_true, if_false, he,
            List.mem_cons] at hev
          rcases hev with rfl | hev
          · exact ⟨noisy, files, rfl⟩
          · exact ih.2 ev hev

lemma runLoop_pendings_ne_nil (model : Model) (args : Args) (outDir : Path)
    (l : List (Batch × List Path))
    (h : (runLoop model args outDir l).2.1 ≠ []) :
    (runLoop model args outDir l).2.2.2 = none := by
  rcases hc : dispatchCond args with _ | _
  · exact absurd (runLoop_cond_false model args outDir l hc).1 h
  · rw [runLoop_cond_true model args outDir l hc]

/-- C1: the scheduler records the pool bound `num_workers`; when
`device == cpu` and `num_workers > 1`, every loader item is submitted to
the pool as an asynchronous job — the pending job being exactly
`_estimate_and_save(model, waveform, filenames, out_dir, config)` — with
no inline execution and no blocking on any item; in every other case
nothing is ever submitted and every scheduled item runs inline. -/
theorem dispatch_submits_iff_cpu_multiworker (env : Env) (model : Model)
    (args : Args) :
    (enhance env model args).poolSize = args.num_workers
    ∧ (args.device = cpuStr ∧ 1 < args.num_workers →
        (enhance env model args).events
          = (enhanceItems env args).map (fun d => Ev.submit d.1 d.2)
        ∧ (enhance env model args).pendings
          = (enhanceItems env args).map
              (fun d => estimate_and_save model d.1 d.2 args.out_dir args)
        ∧ (enhance env model args).inlineWrites = [])
    ∧ (¬(args.device = cpuStr ∧ 1 < args.num_workers) →
        (enhance env model args).pendings = []
        ∧ ∀ ev ∈ (enhance env model args).events,
            ∃ n f, ev = Ev.execInline n f) := by
  rcases hd : get_dataset env args with e | ⟨dset, warned⟩
  · refine ⟨by simp [enhance, hd], fun _ => ?_, fun _ => ?_⟩
    · simp [enhance, enhanceItems, hd]
    · simp [enhance, hd]
  · cases dset with
    | none =>
        refine ⟨by simp [enhance, hd], fun _ => ?_, fun _ => ?_⟩
        · simp [enhance, enhanceItems, hd]
        · simp [enhance, hd]
    | some items =>
        refine ⟨by simp [enhance, hd], fun hc => ?_, fun hc => ?_⟩
        · have hct : dispatchCond args = true := (dispatchCond_iff args).2 hc
          have hrl := runLoop_cond_true model args args.out_dir
            (loader items 1) hct
          refine ⟨?_, ?_, ?_⟩ <;>
            simp [enhance, enhanceItems, hd, hrl]
        · have hcf : dispatchCond args = false := by
            rcases hb : dispatchCond args with _ | _
            · rfl
            · exact absurd ((dispatchCond_iff args).1 hb) hc
          have hrl := runLoop_cond_false model args args.out_dir
            (loader items 1) hcf
          refine ⟨?_, ?_⟩
          · simpa [enhance, hd] using hrl.1
          · intro ev hev
            refine hrl.2 ev ?_
            simpa [enhance, hd] using hev

theorem dispatch_submits_iff_cpu_multiworker_witness :
    ((enhance wEnv wModel { wArgs with num_workers := 4 }).pendings
      = (enhanceItems wEnv { wArgs with num_workers := 4 }).map
          (fun d => estimate_and_save wModel d.1 d.2
            ({ wArgs with num_workers := 4 } : Args).out_dir
            { wArgs with num_workers := 4 }))
    ∧ (enhance wEnv wModel wArgs).pendings = [] :=
  ⟨((dispatch_submits_iff_cpu_multiworker wEnv wModel
      { wArgs with num_workers := 4 }).2.1 ⟨rfl, by decide⟩).2.1,
   ((dispatch_submits_iff_cpu_multiworker wEnv wModel wArgs).2.2
      (by decide)).1⟩

/-! ## C2: the drain re-raises the first failure -/

lemma drain_append_ok (good l : List (Except Err (List WriteOp)))
    (hg : good.all isOkJob = true) : drain (good ++ l) = drain l := by
  induction good with
  | nil => rfl
  | cons j t ih =>
      cases j with
      | ok ws => exact ih (by simpa [isOkJob] using hg)
      | error e => simp [isOkJob] at hg

lemma enhance_outcome_drain (env : Env) (model : Model) (args : Args)
    (h : (enhance env model args).pendings ≠ []) :
    (enhance env model args).outcome
      = drain (enhance env model args).pendings := by
  rcases hd : get_dataset env args with e | ⟨dset, warned⟩
  · exact absurd (by simp [enhance, hd]) h
  · cases dset with
    | none => exact absurd (by simp [enhance, hd]) h
    | some items =>
        have hne : (runLoop model args args.out_dir (loader items 1)).2.1
            ≠ [] := by
          intro hnil
          exact h (by simp [enhance, hd, hnil])
        have hierr := runLoop_pendings_ne_nil model args args.out_dir
          (loader items 1) hne
        simp [enhance, hd, hierr]

/-- C2: after the dataset is exhausted the drain joins the submitted jobs
in submission order; if, after a (possibly empty) error-free prefix, a
joined job raised a failure, that failure is re-raised as the run's
outcome, regardless of every job after it (the remainder of the drain is
aborted, and no job is retried). -/
theorem drain_reraises_first_failure (env : Env) (model : Model)
    (args : Args) (good rest : List (Except Err (List WriteOp))) (e : Err)
    (hp : (enhance env model args).pendings = good ++ .error e :: rest)
    (hg : good.all isOkJob = true) :
    (enhance env model args).outcome = .error e := by
  have hne : (enhance env model args).pendings ≠ [] := by
    rw [hp]; simp
  rw [enhance_outcome_drain env model args hne, hp,
    drain_append_ok good _ hg]
  rfl

theorem drain_reraises_first_failure_witness :
    (enhance wEnv wModelFail { wArgs with num_workers := 4 }).outcome
      = .error .inferenceError :=
  drain_reraises_first_failure wEnv wModelFail
    { wArgs with num_workers := 4 } [] [.error .inferenceError]
    .inferenceError (by decide) (by decide)

/-! ## C8: neither input source is a successful no-op -/

/-- C8: with neither `noisy_dir` nor `noisy_json` set, the dataset
resolves to the `None` sentinel with a warning logged, enhancement is
skipped entirely — no item scheduled, nothing written — and the run ends
successfully, the process exiting with status zero. -/
theorem neither_source_noop (env : Env) (model : Model) (args : Args)
    (h1 : args.noisyJson = none) (h2 : args.noisyDir = none) :
    get_dataset env args = .ok ⟨none, true⟩
    ∧ (enhance env model args).warned = true
    ∧ (enhance env model args).events = []
    ∧ (enhance env model args).written = []
    ∧ (enhance env model args).outcome = .ok ()
    ∧ mainExitCode env model args = 0 := by
  have hd : get_dataset env args = .ok ⟨none, true⟩ := by
    simp [get_dataset, truthyStr, truthyPath, h1, h2]
  exact ⟨hd, by simp [enhance, hd], by simp [enhance, hd],
    by simp [enhance, hd], by simp [enhance, hd],
    by simp [mainExitCode, enhance, hd]⟩

theorem neither_source_noop_witness :
    (enhance wEnv wModel { wArgs with noisyDir := none }).written = []
    ∧ mainExitCode wEnv wModel { wArgs with noisyDir := none } = 0 :=
  ⟨(neither_source_noop wEnv wModel { wArgs with noisyDir := none }
      rfl rfl).2.2.2.1,
   (neither_source_noop wEnv wModel { wArgs with noisyDir := none }
      rfl rfl).2.2.2.2.2⟩

/-! ## C9: malformed or non-list manifests are fatal configuration errors -/

/-- C9: with `noisy_json` supplied, a manifest that is malformed JSON or
whose top level is not a list of file path strings makes dataset
resolution fail with the configuration error; the run performs no
enhancement work, the failure propagates, and the process terminates with
a non-zero exit status (no retry — nothing is scheduled or written). -/
theorem bad_manifest_config_error (env : Env) (model : Model) (args : Args)
    (mpath : Str) (hj : args.noisyJson = some mpath) (hmp : mpath ≠ [])
    (hbad : env.readManifest mpath = none
      ∨ ∃ j, env.readManifest mpath = some j
          ∧ manifestFiles j = .error .configError) :
    get_dataset env args = .error .configError
    ∧ (enhance env model args).events = []
    ∧ (enhance env model args).written = []
    ∧ (enhance env model args).outcome = .error .configError
    ∧ mainExitCode env model args = 1 := by
  have ht : truthyStr args.noisyJson = some mpath := by
    simp [truthyStr, hj, hmp]
  have hd : get_dataset env args = .error .configError := by
    rcases hbad with hm | ⟨j, hm, hf⟩
    · simp [get_dataset, ht, hm]
    · simp [get_dataset, ht, hm, hf]
  exact ⟨hd, by simp [enhance, hd], by simp [enhance, hd],
    by simp [enhance, hd], by simp [mainExitCode, enhance, hd]⟩

theorem bad_manifest_config_error_witness :
    (mainExitCode wEnv wModel { wArgs with noisyJson := some ['m'] } = 1)
    ∧ (mainExitCode wEnvNonList wModel
        { wArgs with noisyJson := some ['m'] } = 1) :=
  ⟨(bad_manifest_config_error wEnv wModel
      { wArgs with noisyJson := some ['m'] } ['m'] rfl (by decide)
      (Or.inl rfl)).2.2.2.2,
   (bad_manifest_config_error wEnvNonList wModel
      { wArgs with noisyJson := some ['m'] } ['m'] rfl (by decide)
      (Or.inr ⟨.num 3, rfl, rfl⟩)).2.2.2.2⟩

/-! ## C10: `batch_size` does not influence the run -/

lemma runLoop_batch_size (model : Model) (d : Str) (dr : ℚ) (nw : Nat)
    (st : Bool) (bs bs' : Nat) (od : Path) (nd : Option Path)
    (nj : Option Str) (o : Path) (l : List (Batch × List Path)) :
    runLoop model ⟨d, dr, nw, st, bs, od, nd, nj⟩ o l
      = runLoop model ⟨d, dr, nw, st, bs', od, nd, nj⟩ o l := by
  induction l with
  | nil => rfl
  | cons x t ih =>
      obtain ⟨n, f⟩ := x
      have h1 : dispatchCond ⟨d, dr, nw, st, bs, od, nd, nj⟩
          = dispatchCond ⟨d, dr, nw, st, bs', od, nd, nj⟩ := rfl
      have h2 : estimate_and_save model n f o ⟨d, dr, nw, st, bs, od, nd, nj⟩
          = estimate_and_save model n f o ⟨d, dr, nw, st, bs', od, nd, nj⟩ :=
        rfl
      simp only [runLoop, h1, h2, ih]

/-- C10: the scheduler always requests the loader with the literal batch
size 1, so the whole observable run — items enumerated, estimates,
writes, outcome, exit status — is identical for any configured
`batch_size` value. -/
theorem batch_size_noninterference (env : Env) (model : Model)
    (args : Args) (b : Nat) :
    enhance env model { args with batch_size := b } = enhance env model args
    ∧ mainExitCode env model { args with batch_size := b }
        = mainExitCode env model args := by
  cases args with
  | mk d dr nw st bs od nd nj =>
      have hds : get_dataset env ⟨d, dr, nw, st, b, od, nd, nj⟩
          = get_dataset env ⟨d, dr, nw, st, bs, od, nd, nj⟩ := rfl
      have henh : enhance env model ⟨d, dr, nw, st, b, od, nd, nj⟩
          = enhance env model ⟨d, dr, nw, st, bs, od, nd, nj⟩ := by
        rcases hd : get_dataset env ⟨d, dr, nw, st, bs, od, nd, nj⟩
          with e | ⟨ds, wn⟩
        · simp [enhance, hd, hds.trans hd]
        · cases ds with
          | none => simp [enhance, hd, hds.trans hd]
          | some items =>
              simp [enhance, hd, hds.trans hd,
                runLoop_batch_size model d dr nw st b bs od nd nj]
      exact ⟨henh, by simp [mainExitCode, henh]⟩

/-! ## C7: failure mid-run in a worker job

In the pool branch the loop submits every dataset item before any result
is inspected, and `ProcessPoolExecutor` never cancels submitted work (its
shutdown waits for it), so a failure in item 3's job does not prevent
items 4 and 5 from being estimated and written; only the drain stops
early.  The five-file scenario below (worker job of `i/c.wav` raises, the
others succeed) exhibits this. -/

/-- C7 counterexample: in the five-item scenario the drain re-raises the
worker failure of item 3, yet item 4's output (`o/d.wav`) is written —
items 4 and 5 are processed, contrary to the claim. -/
theorem worker_failure_counterexample :
    (enhance wEnv5 wModelShape { wArgs with num_workers := 4 }).outcome
      = .error .inferenceError
    ∧ ({ mkdirs := some [['o']], path := [['o'], ['d', '.', 'w', 'a', 'v']],
          data := [[]] } : WriteOp)
        ∈ (enhance wEnv5 wModelShape { wArgs with num_workers := 4 }).written := by
  decide

/-- C7 amended: when the worker job of item 3 of 5 raises after items 1
and 2 have written, the drain re-raises that failure as the run's
outcome, the outputs of items 1 and 2 remain (no rollback) — but items 4
and 5, submitted before the dataset was exhausted, are still executed by
the pool and their outputs are written too; only the joining of the
remaining jobs is aborted, and no job is retried. -/
theorem worker_failure_amended :
    (enhance wEnv5 wModelShape { wArgs with num_workers := 4 }).pendings
      = [.ok [⟨some [['o']], [['o'], ['a', '.', 'w', 'a', 'v']], [[]]⟩],
         .ok [⟨some [['o']], [['o'], ['b', '.', 'w', 'a', 'v']], [[]]⟩],
         .error .inferenceError,
         .ok [⟨some [['o']], [['o'], ['d', '.', 'w', 'a', 'v']], [[]]⟩],
         .ok [⟨some [['o']], [['o'], ['e', '.', 'w', 'a', 'v']], [[]]⟩]]
    ∧ (enhance wEnv5 wModelShape { wArgs with num_workers := 4 }).written.map
        (fun op => op.path)
      = [[['o'], ['a', '.', 'w', 'a', 'v']], [['o'], ['b', '.', 'w', 'a', 'v']],
         [['o'], ['d', '.', 'w', 'a', 'v']], [['o'], ['e', '.', 'w', 'a', 'v']]]
    ∧ (enhance wEnv5 wModelShape { wArgs with num_workers := 4 }).outcome
      = .error .inferenceError := by
  decide

end Denoiser
